import Mathlib

/-!
# Shallow embedding of the r2md core pipeline

This file embeds the core of the `r2md` repository in Lean 4 and proves the
frozen specification claims about it:

* `src/types.rs` — `CodeChunk`, `FileEntry`;
* `src/deps.rs` — heuristic per-language import extraction,
  `build_dependency_graph`, and `sort_files_by_dependency` (topological sort
  with cycle detection);
* `src/chunker.rs` — `tokenize_and_split`, the token-window splitter;
* `src/parse/fallback.rs` — `parse_fallback_line_based`;
* `src/parse/rustlang.rs` — `parse_rust_tree` (the tree-sitter parser is
  external native code and is abstracted as a function yielding the root
  node's children, `none` on parse failure);
* `src/training.rs` — `produce_training_json` (per-file prompt/completion
  splitting; JSON serialisation and file output are external and omitted;
  the `f64` split ratio is modelled as a rational number).

Rust string primitives (`str::lines`, `str::trim`, `str::split`,
`str::replace`, `Path::extension`, …) are re-implemented over `List Char`
with structural (fuel-based) recursion so that every definition evaluates
inside the kernel.  The tokenizer (`tiktoken` / `tokenizers`) is external;
`encode` and `decode` are taken as explicit function arguments.
-/

/-! ## Rust string primitives -/

/-- Split a character list at every character satisfying `p`, keeping empty
pieces — the behaviour of Rust's `str::split(char)`. -/
def splitChar (p : Char → Bool) : List Char → List (List Char)
  | [] => [[]]
  | c :: cs =>
    let r := splitChar p cs
    if p c then [] :: r
    else
      match r with
      | [] => [[c]]
      | h :: t => (c :: h) :: t

/-- Fuel-based leftmost-match splitting at a non-empty separator string,
the behaviour of Rust's `str::split(&str)`.  `acc` holds the current piece
reversed; fuel `≥` the length of the remaining input gives the true
result. -/
def splitOnAuxL (sep : List Char) : Nat → List Char → List Char → List (List Char)
  | 0, acc, rest => [acc.reverse ++ rest]
  | _ + 1, acc, [] => [acc.reverse]
  | fuel + 1, acc, c :: cs =>
    if sep.isPrefixOf (c :: cs) then
      acc.reverse :: splitOnAuxL sep fuel [] ((c :: cs).drop sep.length)
    else
      splitOnAuxL sep fuel (c :: acc) cs

/-- Rust `str::split(&str)` (also the model of `String.splitOn`). -/
def splitOnL (s sep : String) : List String :=
  if sep.data.isEmpty then [s]
  else (splitOnAuxL sep.data s.data.length [] s.data).map (fun l => String.mk l)

/-- Fuel-based leftmost-match replacement of a non-empty pattern,
the behaviour of Rust's `str::replace`. -/
def replaceAuxL (pat rep : List Char) : Nat → List Char → List Char
  | 0, rest => rest
  | _ + 1, [] => []
  | fuel + 1, c :: cs =>
    if pat.isPrefixOf (c :: cs) then
      rep ++ replaceAuxL pat rep fuel ((c :: cs).drop pat.length)
    else
      c :: replaceAuxL pat rep fuel cs

/-- Rust `str::replace`. -/
def replaceL (s pat rep : String) : String :=
  if pat.data.isEmpty then s
  else String.mk (replaceAuxL pat.data rep.data s.data.length s.data)

/-- Rust `str::lines`: split on `'\n'`, drop the final empty piece produced
by a trailing newline, and strip one trailing `'\r'` from each line. -/
def rustLines (s : String) : List String :=
  let pieces := splitChar (fun c => c = '\n') s.data
  let pieces := if pieces.getLast? = some [] then pieces.dropLast else pieces
  pieces.map (fun l =>
    String.mk (if l.getLast? = some '\r' then l.dropLast else l))

/-- Rust `str::trim_start` (ASCII whitespace; the claims only exercise
ASCII input). -/
def trimStartL (s : String) : String :=
  String.mk (s.data.dropWhile Char.isWhitespace)

/-- Rust `str::trim`. -/
def trimL (s : String) : String :=
  String.mk
    (((s.data.dropWhile Char.isWhitespace).reverse.dropWhile Char.isWhitespace).reverse)

/-- Rust `str::starts_with(&str)`. -/
def startsWithL (s pre : String) : Bool :=
  pre.data.isPrefixOf s.data

/-- Rust `str::ends_with(&str)`. -/
def endsWithL (s suf : String) : Bool :=
  suf.data.reverse.isPrefixOf s.data.reverse

/-- Rust `str::trim_end_matches(';')`. -/
def trimEndSemicolons (s : String) : String :=
  String.mk ((s.data.reverse.dropWhile (fun c => c = ';')).reverse)

/-- Rust `str::split_whitespace`. -/
def splitWhitespaceL (s : String) : List String :=
  ((splitChar Char.isWhitespace s.data).filter (fun l => !l.isEmpty)).map
    (fun l => String.mk l)

/-- Rust `Path::extension` on a slash-separated relative path, rendered as a
string (`""` when Rust yields `None`: no file-name dot, or a hidden file
whose only dot is the leading one). -/
def pathExtension (path : String) : String :=
  let name := (splitOnL path "/").getLastD ""
  match splitOnL name "." with
  | [] => ""
  | [_] => ""
  | first :: rest =>
    if first = "" && rest.length == 1 then "" else rest.getLastD ""

/-! ## Data model (src/types.rs) -/

/-- `CodeChunk` from `src/types.rs`. -/
structure CodeChunk where
  text : String
  language : String
  deriving DecidableEq, Repr

/-- `FileEntry` from `src/types.rs`. -/
structure FileEntry where
  rel_path : String
  content : String
  deriving DecidableEq, Repr

instance : Inhabited FileEntry := ⟨⟨"", ""⟩⟩

/-! ## Dependency extraction (src/deps.rs) -/

/-- `extract_rust_dependencies` from `src/deps.rs`. -/
def extract_rust_dependencies (content : String) : List String :=
  (rustLines content).filterMap (fun line =>
    if startsWithL (trimL line) "use " then
      match (splitOnL line "use ")[1]? with
      | some dep =>
        some (replaceL (trimEndSemicolons (trimL dep)) "::" "/" ++ ".rs")
      | none => none
    else none)

/-- `extract_python_dependencies` from `src/deps.rs`. -/
def extract_python_dependencies (content : String) : List String :=
  (rustLines content).filterMap (fun line =>
    if startsWithL (trimL line) "import " || startsWithL (trimL line) "from " then
      match (splitWhitespaceL line)[1]? with
      | some dep => some (replaceL dep "." "/" ++ ".py")
      | none => none
    else none)

/-- `extract_js_ts_dependencies` from `src/deps.rs`. -/
def extract_js_ts_dependencies (content : String) : List String :=
  (rustLines content).filterMap (fun line =>
    if startsWithL (trimL line) "import " then
      match ((splitChar (fun c => c = '"' || c = '\'') line.data).map
          (fun l => String.mk l))[1]? with
      | some dep =>
        some (if endsWithL dep ".js" || endsWithL dep ".ts" then dep else dep ++ ".js")
      | none => none
    else none)

/-- `extract_java_dependencies` from `src/deps.rs`. -/
def extract_java_dependencies (content : String) : List String :=
  (rustLines content).filterMap (fun line =>
    if startsWithL (trimL line) "import " then
      match (splitOnL line "import ")[1]? with
      | some dep =>
        some (replaceL (trimEndSemicolons (trimL dep)) "." "/" ++ ".java")
      | none => none
    else none)

/-- `extract_dependencies` from `src/deps.rs`: dispatch on the file
extension; unsupported extensions yield no references. -/
def extract_dependencies (filePath content : String) : List String :=
  match pathExtension filePath with
  | "rs" => extract_rust_dependencies content
  | "py" => extract_python_dependencies content
  | "js" => extract_js_ts_dependencies content
  | "ts" => extract_js_ts_dependencies content
  | "java" => extract_java_dependencies content
  | _ => []

/-! ## Dependency graph (src/deps.rs) -/

/-- `petgraph::DiGraph<PathBuf, ()>` specialised to what `deps.rs` uses:
node weights in insertion order, and directed edges as pairs of node
indices in insertion order. -/
structure DiGraph where
  nodes : List String
  edges : List (Nat × Nat)
  deriving DecidableEq, Repr

/-- Index of the last occurrence of `p`: models the `HashMap` built by
`build_dependency_graph`, where a later duplicate path overwrites the
recorded node index. -/
def lastIdxOf (p : String) : List String → Option Nat
  | [] => none
  | q :: rest =>
    match lastIdxOf p rest with
    | some i => some (i + 1)
    | none => if q = p then some 0 else none

/-- `build_dependency_graph` from `src/deps.rs`: one node per `FileEntry`
(in input order), and an edge `file → dep` for every extracted reference
whose candidate path equals the relative path of a node. -/
def build_dependency_graph (files : List FileEntry) : DiGraph :=
  let nodes := files.map (fun f => f.rel_path)
  let edges := files.flatMap (fun file =>
    match lastIdxOf file.rel_path nodes with
    | some i =>
      (extract_dependencies file.rel_path file.content).filterMap (fun dep =>
        (lastIdxOf dep nodes).map (fun j => (i, j)))
    | none => [])
  ⟨nodes, edges⟩

/-! ## Topological sort (src/deps.rs)

`petgraph::algo::toposort` is external library code; it is modelled by its
documented contract — on success each node is ordered before its
successors, and any graph containing a directed cycle (self-loops
included) yields an error — realised here by Kahn's algorithm with
deterministic first-fit tie-breaking. -/

/-- One selection step: the first remaining node with no incoming edge from
a remaining node. -/
def kahnPick (edges : List (Nat × Nat)) (remaining : List Nat) : Option Nat :=
  remaining.find? (fun v => remaining.all (fun u => !(decide ((u, v) ∈ edges))))

/-- Kahn's algorithm, fuel-based; fuel `≥` the number of remaining nodes
gives the true result (each step removes one node). -/
def kahnAux (edges : List (Nat × Nat)) : Nat → List Nat → Option (List Nat)
  | _, [] => some []
  | 0, _ :: _ => none
  | fuel + 1, v :: rest =>
    match kahnPick edges (v :: rest) with
    | none => none
    | some w => (kahnAux edges fuel ((v :: rest).erase w)).map (fun l => w :: l)

/-- Model of `petgraph::algo::toposort`: `none` exactly on graphs with a
directed cycle, otherwise a topological order of all node indices. -/
def toposortG (g : DiGraph) : Option (List Nat) :=
  kahnAux g.edges g.nodes.length (List.range g.nodes.length)

/-- `sort_files_by_dependency` from `src/deps.rs`. -/
def sort_files_by_dependency (files : List FileEntry) : Except String (List FileEntry) :=
  let graph := build_dependency_graph files
  match toposortG graph with
  | none => .error "Cycle detected in dependency graph"
  | some idxs =>
    .ok (idxs.map (fun i =>
      match files.find? (fun f => f.rel_path == graph.nodes.getD i "") with
      | some f => f
      | none => ⟨"", ""⟩))

instance {ε α : Type} [DecidableEq ε] [DecidableEq α] : DecidableEq (Except ε α)
  | .error a, .error b =>
    if h : a = b then .isTrue (by rw [h]) else .isFalse (by simp [h])
  | .error _, .ok _ => .isFalse (by simp)
  | .ok _, .error _ => .isFalse (by simp)
  | .ok a, .ok b =>
    if h : a = b then .isTrue (by rw [h]) else .isFalse (by simp [h])

/-- A directed cycle in `g`: a non-empty list of nodes `v :: rest` with an
edge from each element to the next and from the last back to `v` (a
self-loop is the one-element case `[v]`). -/
def IsCycle (g : DiGraph) (c : List Nat) : Prop :=
  match c with
  | [] => False
  | v :: rest => List.Chain (fun a b => (a, b) ∈ g.edges) v (rest ++ [v])

/-- `a` occurs strictly before `b` in `l`. -/
def Precedes {α : Type} (l : List α) (a b : α) : Prop :=
  ∃ i j, i < j ∧ l.get? i = some a ∧ l.get? j = some b

/-! ## Token-window splitting (src/chunker.rs) -/

/-- The window loop of `tokenize_and_split`, fuel-based: each iteration
emits `min M (length rest)` tokens as one window.  With `1 ≤ M`, fuel `≥`
the number of tokens gives the true result; with `M = 0` the Rust loop
never terminates, so every theorem below assumes `0 < M` (the spec calls
the maximum context a positive integer). -/
def splitWindowsAux (M : Nat) : Nat → List Nat → List (List Nat)
  | _, [] => []
  | 0, _ :: _ => []
  | fuel + 1, c :: cs => (c :: cs).take M :: splitWindowsAux M fuel ((c :: cs).drop M)

/-- Consecutive windows of at most `M` tokens. -/
def splitWindows (M : Nat) (ids : List Nat) : List (List Nat) :=
  splitWindowsAux M ids.length ids

/-- `tokenize_and_split` from `src/chunker.rs`.  The `cl100k_base` tokenizer
is external; `encode` and `decode` stand for `bpe.encode_ordinary` and
`bpe.decode` (`decode` failure is replaced by the empty string, Rust's
`unwrap_or_default`). -/
def tokenize_and_split (encode : String → List Nat) (decode : List Nat → Option String)
    (chunks : List CodeChunk) (maxContext : Nat) : List CodeChunk :=
  chunks.flatMap (fun chunk =>
    let tokenIds := encode chunk.text
    if tokenIds.length ≤ maxContext then [chunk]
    else
      (splitWindows maxContext tokenIds).map (fun sub =>
        ⟨(decode sub).getD "", chunk.language⟩))

/-! ## Fallback chunker (src/parse/fallback.rs) -/

/-- Does the left-trimmed line start with one of the fallback trigger
keywords? -/
def isTriggerLine (line : String) : Bool :=
  let trimmed := trimStartL line
  startsWithL trimmed "function" || startsWithL trimmed "class" ||
    startsWithL trimmed "def "

/-- Body of the line loop of `parse_fallback_line_based`: on a trigger line
the non-empty accumulator is closed as a chunk; the line (plus `'\n'`) is
then appended to the accumulator. -/
def fallbackStep (lang : String) (st : List CodeChunk × String) (line : String) :
    List CodeChunk × String :=
  let (results, acc) := st
  let (results, acc) :=
    if isTriggerLine line && !(acc == "") then (results ++ [⟨acc, lang⟩], "")
    else (results, acc)
  (results, acc ++ line ++ "\n")

/-- `parse_fallback_line_based` from `src/parse/fallback.rs`. -/
def parse_fallback_line_based (content lang : String) : List CodeChunk :=
  let st := (rustLines content).foldl (fallbackStep lang) ([], "")
  if !(st.2 == "") then st.1 ++ [⟨st.2, lang⟩] else st.1

/-! ## Rust syntactic chunker (src/parse/rustlang.rs) -/

/-- A direct child of the tree-sitter root node: its syntactic kind and its
byte range in the source. -/
structure RustNode where
  kind : String
  startByte : Nat
  endByte : Nat
  deriving DecidableEq, Repr

/-- The "interesting" top-level node kinds of `parse_rust_tree`. -/
def rustInteresting : List String :=
  ["function_item", "struct_item", "enum_item", "impl_item", "trait_item"]

/-- `extract_snippet` from `src/parse/rustlang.rs` (byte-range slice). -/
def extract_snippet (source : String) (n : RustNode) : String :=
  source.extract ⟨n.startByte⟩ ⟨n.endByte⟩

/-- `parse_rust_tree` from `src/parse/rustlang.rs`.  The tree-sitter
grammar is external native code, abstracted as `parse`, which yields the
root node's direct children (`none` on parse failure). -/
def parse_rust_tree (parse : String → Option (List RustNode)) (content : String) :
    List CodeChunk :=
  match parse content with
  | none => [⟨content, "rust"⟩]
  | some children =>
    let results := children.filterMap (fun child =>
      if rustInteresting.contains child.kind then
        some (⟨extract_snippet content child, "rust"⟩ : CodeChunk)
      else none)
    if results.isEmpty then [⟨content, "rust"⟩] else results

/-! ## Training samples (src/training.rs) -/

/-- `TrainingSample` from `src/training.rs`. -/
structure TrainingSample where
  prompt : String
  completion : String
  prompt_tokens : Nat
  completion_tokens : Nat
  tokenizer : String
  deriving DecidableEq, Repr

/-- The tokenizer identifier recorded in every sample. -/
def tokenizerName : String := "deepseek-ai/DeepSeek-R1-Distill-Llama-70B"

/-- The fatal error produced for a split ratio outside (0, 1). -/
def ratioError : String := "Split ratio must be between 0 and 1"

/-- The per-file body of the loop in `produce_training_json`: files with
fewer than two tokens are skipped; otherwise the token sequence is split
at `⌈total · r⌉`.  The Rust `f64` ratio and `f64::ceil` are modelled with
exact rational arithmetic. -/
def mkSample (encode : String → List Nat) (decode : List Nat → Option String)
    (splitRatio : ℚ) (content : String) : Option TrainingSample :=
  let tokens := encode content
  let total := tokens.length
  if total < 2 then none
  else
    let promptEnd := (Int.ceil ((total : ℚ) * splitRatio)).toNat
    let promptIds := tokens.take promptEnd
    let completionIds := tokens.drop promptEnd
    some
      { prompt := (decode promptIds).getD ""
        completion := (decode completionIds).getD ""
        prompt_tokens := promptIds.length
        completion_tokens := completionIds.length
        tokenizer := tokenizerName }

/-- `produce_training_json` from `src/training.rs`, up to the external JSON
serialisation: the ratio is validated first, the files are sorted by
dependency, and one sample is produced per file with at least two
tokens. -/
def produce_training_json (encode : String → List Nat)
    (decode : List Nat → Option String) (files : List FileEntry)
    (splitRatio : ℚ) : Except String (List TrainingSample) :=
  if splitRatio ≤ 0 ∨ 1 ≤ splitRatio then .error ratioError
  else
    match sort_files_by_dependency files with
    | .error e => .error e
    | .ok sorted =>
      .ok (sorted.filterMap (fun f => mkSample encode decode splitRatio f.content))

/-! ## Concrete instances used by witnesses and counterexamples -/

/-- A toy injective tokenizer for witnesses: one token per character. -/
def encodeChars (s : String) : List Nat :=
  s.data.map Char.toNat

/-- Decoder matching `encodeChars`. -/
def natsToCharString (l : List Nat) : String :=
  String.mk (l.map Char.ofNat)

/-- `natsToCharString` as a never-failing decoder. -/
def decodeChars (l : List Nat) : Option String :=
  some (natsToCharString l)

/-- Concatenation of a list of strings in order. -/
def joinStrings : List String → String
  | [] => ""
  | s :: rest => s ++ joinStrings rest

/-- Chain scenario: `a.rs` references `b.rs`. -/
def fileA : FileEntry := ⟨"a.rs", "use b;"⟩

/-- Chain scenario: `b.rs` references `c.rs`. -/
def fileB : FileEntry := ⟨"b.rs", "use c;"⟩

/-- Chain scenario: `c.rs` references nothing. -/
def fileC : FileEntry := ⟨"c.rs", "fn main() {}"⟩

/-- Mutual-reference scenario, first file. -/
def cycFileA : FileEntry := ⟨"a.rs", "use b;"⟩

/-- Mutual-reference scenario, second file. -/
def cycFileB : FileEntry := ⟨"b.rs", "use a;"⟩

/-- A file whose single `use` line resolves to the file's own path. -/
def selfFile : FileEntry := ⟨"a.rs", "use a;"⟩

/-- A file with an unsupported extension (contributes no outgoing edges). -/
def unsupFile : FileEntry := ⟨"b.txt", "use a;"⟩

/-! ## Window-splitting lemmas -/

theorem splitWindowsAux_flatten (M : Nat) (hM : 0 < M) :
    ∀ fuel ids, ids.length ≤ fuel → (splitWindowsAux M fuel ids).flatten = ids := by
  intro fuel
  induction fuel with
  | zero =>
    intro ids hlen
    have : ids = [] := List.eq_nil_of_length_eq_zero (Nat.le_zero.mp hlen)
    subst this
    simp [splitWindowsAux]
  | succ fuel ih =>
    intro ids hlen
    match ids with
    | [] => simp [splitWindowsAux]
    | c :: cs =>
      have hdrop : ((c :: cs).drop M).length ≤ fuel := by
        rw [List.length_drop]
        simp only [List.length_cons] at hlen ⊢
        omega
      simp only [splitWindowsAux, List.flatten_cons, ih _ hdrop,
        List.take_append_drop]

theorem splitWindowsAux_mem_length_le (M : Nat) :
    ∀ fuel ids w, w ∈ splitWindowsAux M fuel ids → w.length ≤ M := by
  intro fuel
  induction fuel with
  | zero =>
    intro ids w hw
    match ids with
    | [] => simp [splitWindowsAux] at hw
    | _ :: _ => simp [splitWindowsAux] at hw
  | succ fuel ih =>
    intro ids w hw
    match ids with
    | [] => simp [splitWindowsAux] at hw
    | c :: cs =>
      simp only [splitWindowsAux, List.mem_cons] at hw
      rcases hw with rfl | hw
      · rw [List.length_take]
        exact Nat.min_le_left _ _
      · exact ih _ _ hw

theorem splitWindowsAux_ne_nil (M fuel : Nat) (c : Nat) (cs : List Nat) :
    splitWindowsAux M (fuel + 1) (c :: cs) ≠ [] := by
  simp [splitWindowsAux]

theorem splitWindowsAux_dropLast_length (M : Nat) (hM : 0 < M) :
    ∀ fuel ids, ids.length ≤ fuel →
      ∀ w ∈ (splitWindowsAux M fuel ids).dropLast, w.length = M := by
  intro fuel
  induction fuel with
  | zero =>
    intro ids hlen w hw
    have : ids = [] := List.eq_nil_of_length_eq_zero (Nat.le_zero.mp hlen)
    subst this
    simp [splitWindowsAux] at hw
  | succ fuel ih =>
    intro ids hlen w hw
    match ids with
    | [] => simp [splitWindowsAux] at hw
    | c :: cs =>
      simp only [splitWindowsAux] at hw
      rcases hrest : splitWindowsAux M fuel ((c :: cs).drop M) with _ | ⟨r, rs⟩
      · rw [hrest] at hw
        simp at hw
      · rw [hrest, List.dropLast_cons_of_ne_nil (by simp), List.mem_cons] at hw
        have hdropne : (c :: cs).drop M ≠ [] := by
          intro hnil
          rw [hnil] at hrest
          simp [splitWindowsAux] at hrest
        have hMlt : M < (c :: cs).length := by
          by_contra hge
          exact hdropne (List.drop_eq_nil_of_le (Nat.le_of_not_lt hge))
        rcases hw with rfl | hw
        · rw [List.length_take]
          exact Nat.min_eq_left (Nat.le_of_lt hMlt)
        · have hdrop : ((c :: cs).drop M).length ≤ fuel := by
            rw [List.length_drop]
            simp only [List.length_cons] at hlen ⊢
            omega
          exact ih _ hdrop w (by rw [hrest]; exact hw)

theorem splitWindows_flatten (M : Nat) (hM : 0 < M) (ids : List Nat) :
    (splitWindows M ids).flatten = ids :=
  splitWindowsAux_flatten M hM ids.length ids le_rfl

theorem splitWindows_sum (M : Nat) (hM : 0 < M) (ids : List Nat) :
    ((splitWindows M ids).map List.length).sum = ids.length := by
  rw [← List.length_flatten, splitWindows_flatten M hM]

/-- Unfolding of `tokenize_and_split` on a single chunk. -/
theorem tokenize_and_split_singleton (encode : String → List Nat)
    (decode : List Nat → Option String) (c : CodeChunk) (M : Nat) :
    tokenize_and_split encode decode [c] M =
      if (encode c.text).length ≤ M then [c]
      else (splitWindows M (encode c.text)).map
        (fun sub => ⟨(decode sub).getD "", c.language⟩) := by
  by_cases h : (encode c.text).length ≤ M <;>
    simp [tokenize_and_split, h]

/-! ## Claim C3: context-window splitting partitions the token sequence -/

/-- **C3.**  For every input chunk and every maximum token count `M > 0`
(the spec makes the maximum context a positive integer; the source loop
diverges at `M = 0`): a chunk of at most `M` tokens passes through
unchanged; otherwise the chunk is replaced by the decoded windows, in
order, tagged with the original language, where the windows are
consecutive, non-overlapping (their concatenation is the original token
sequence), each has at most `M` tokens, every non-final window has exactly
`M` tokens, and the window lengths sum to the original token count. -/
theorem tokenize_and_split_window_partition (encode : String → List Nat)
    (decode : List Nat → Option String) (c : CodeChunk) (M : Nat) (hM : 0 < M) :
    ((encode c.text).length ≤ M → tokenize_and_split encode decode [c] M = [c]) ∧
    (M < (encode c.text).length →
      tokenize_and_split encode decode [c] M =
        (splitWindows M (encode c.text)).map
          (fun sub => ⟨(decode sub).getD "", c.language⟩) ∧
      (splitWindows M (encode c.text)).flatten = encode c.text ∧
      (∀ w ∈ splitWindows M (encode c.text), w.length ≤ M) ∧
      (∀ w ∈ (splitWindows M (encode c.text)).dropLast, w.length = M) ∧
      ((splitWindows M (encode c.text)).map List.length).sum =
        (encode c.text).length ∧
      ∀ out ∈ tokenize_and_split encode decode [c] M,
        out.language = c.language) := by
  constructor
  · intro hle
    rw [tokenize_and_split_singleton, if_pos hle]
  · intro hover
    have hne := Nat.not_le.mpr hover
    refine ⟨?_, splitWindows_flatten M hM _, ?_, ?_, splitWindows_sum M hM _, ?_⟩
    · rw [tokenize_and_split_singleton, if_neg hne]
    · intro w hw
      exact splitWindowsAux_mem_length_le M _ _ w hw
    · intro w hw
      exact splitWindowsAux_dropLast_length M hM _ _ le_rfl w hw
    · intro out hout
      rw [tokenize_and_split_singleton, if_neg hne] at hout
      obtain ⟨sub, _, rfl⟩ := List.mem_map.mp hout
      rfl

/-- Witness for C3 at a concrete oversized chunk (`"abc"`, `M = 2`). -/
theorem tokenize_and_split_window_partition_witness :
    tokenize_and_split encodeChars decodeChars [⟨"abc", "x"⟩] 2 =
      (splitWindows 2 (encodeChars "abc")).map
        (fun sub => ⟨(decodeChars sub).getD "", "x"⟩) ∧
    (splitWindows 2 (encodeChars "abc")).flatten = encodeChars "abc" :=
  ⟨((tokenize_and_split_window_partition encodeChars decodeChars ⟨"abc", "x"⟩ 2
      (by decide)).2 (by decide)).1,
   (((tokenize_and_split_window_partition encodeChars decodeChars ⟨"abc", "x"⟩ 2
      (by decide)).2 (by decide)).2).1⟩

/-! ## Claim C6: decoding the windows reproduces the full decode -/

/-- A concatenation-homomorphic decoder sends `[]` to `""`. -/
theorem hom_nil_eq_empty (d : List Nat → String)
    (hd : ∀ a b, d (a ++ b) = d a ++ d b) : d [] = "" := by
  have h := hd [] []
  simp only [List.append_nil] at h
  have hlen := congrArg String.length h
  rw [String.length_append] at hlen
  have h0 : (d []).length = 0 := by omega
  rcases hmk : d [] with ⟨data⟩
  rw [hmk, String.length_mk, List.length_eq_zero] at h0
  subst h0
  rfl

/-- Concatenating the images of a concat-homomorphic decoder over a window
list decodes the flattened window list. -/
theorem joinStrings_map_hom (d : List Nat → String)
    (hd : ∀ a b, d (a ++ b) = d a ++ d b) :
    ∀ ws : List (List Nat), joinStrings (ws.map d) = d ws.flatten := by
  intro ws
  induction ws with
  | nil => simp [joinStrings, hom_nil_eq_empty d hd]
  | cons w ws ih => simp only [List.map_cons, joinStrings, List.flatten_cons, hd, ih]

/-- **C6.**  For every chunk whose encoded length exceeds `M > 0` and every
concatenation-homomorphic total decoder (BPE decoding concatenates the
byte strings of the tokens, and a per-window decode failure is replaced by
`""` rather than aborting), concatenating the emitted windows' texts in
order reproduces the decode of the full original token sequence. -/
theorem window_decode_concat (encode : String → List Nat) (d : List Nat → String)
    (hd : ∀ a b, d (a ++ b) = d a ++ d b) (c : CodeChunk) (M : Nat)
    (hM : 0 < M) (hover : M < (encode c.text).length) :
    joinStrings ((tokenize_and_split encode (fun l => some (d l)) [c] M).map
      (fun out => out.text)) = d (encode c.text) := by
  rw [tokenize_and_split_singleton, if_neg (Nat.not_le.mpr hover), List.map_map]
  have hcomp : ((fun out : CodeChunk => out.text) ∘
      fun sub => (⟨(some (d sub)).getD "", c.language⟩ : CodeChunk)) = d := rfl
  rw [hcomp, joinStrings_map_hom d hd, splitWindows_flatten M hM]

/-- `natsToCharString` is concatenation-homomorphic. -/
theorem natsToCharString_append (a b : List Nat) :
    natsToCharString (a ++ b) = natsToCharString a ++ natsToCharString b := by
  simp only [natsToCharString, List.map_append]
  rfl

/-- Witness for C6 at a concrete oversized chunk. -/
theorem window_decode_concat_witness :
    joinStrings ((tokenize_and_split encodeChars (fun l => some (natsToCharString l))
      [⟨"abc", "x"⟩] 2).map (fun out => out.text)) =
      natsToCharString (encodeChars "abc") :=
  window_decode_concat encodeChars natsToCharString natsToCharString_append
    ⟨"abc", "x"⟩ 2 (by decide) (by decide)

/-! ## Lemmas about `lastIdxOf` and the built graph -/

theorem lastIdxOf_lt_length (p : String) :
    ∀ (l : List String) (i : Nat), lastIdxOf p l = some i → i < l.length := by
  intro l
  induction l with
  | nil => intro i h; cases h
  | cons q rest ih =>
    intro i h
    simp only [lastIdxOf] at h
    rcases hrec : lastIdxOf p rest with _ | k
    · rw [hrec] at h
      by_cases hq : q = p
      · simp only [if_pos hq] at h
        cases h
        simp
      · simp [if_neg hq] at h
    · rw [hrec] at h
      cases h
      have := ih k hrec
      simp only [List.length_cons]
      omega

theorem lastIdxOf_getD (p : String) :
    ∀ (l : List String) (i : Nat), lastIdxOf p l = some i → l.getD i "" = p := by
  intro l
  induction l with
  | nil => intro i h; cases h
  | cons q rest ih =>
    intro i h
    simp only [lastIdxOf] at h
    rcases hrec : lastIdxOf p rest with _ | k
    · rw [hrec] at h
      by_cases hq : q = p
      · simp only [if_pos hq] at h
        cases h
        simpa using hq
      · simp [if_neg hq] at h
    · rw [hrec] at h
      cases h
      simpa using ih k hrec

theorem lastIdxOf_none_of_not_mem (p : String) :
    ∀ l : List String, p ∉ l → lastIdxOf p l = none := by
  intro l
  induction l with
  | nil => intro _; rfl
  | cons q rest ih =>
    intro hnm
    have hq : ¬(q = p) := fun h => hnm (h ▸ List.mem_cons_self q rest)
    have hrest : p ∉ rest := fun h => hnm (List.mem_cons_of_mem q h)
    simp [lastIdxOf, ih hrest, hq]

theorem lastIdxOf_isSome_of_mem (p : String) :
    ∀ l : List String, p ∈ l → ∃ i, lastIdxOf p l = some i := by
  intro l
  induction l with
  | nil => intro h; cases h
  | cons q rest ih =>
    intro hm
    by_cases hrest : p ∈ rest
    · obtain ⟨i, hi⟩ := ih hrest
      exact ⟨i + 1, by simp [lastIdxOf, hi]⟩
    · have hq : q = p := by
        rcases List.mem_cons.mp hm with h | h
        · exact h.symm
        · exact absurd h hrest
      exact ⟨0, by simp [lastIdxOf, lastIdxOf_none_of_not_mem p rest hrest, hq]⟩

theorem lastIdxOf_of_nodup :
    ∀ (l : List String), l.Nodup → ∀ (i : Nat) (p : String),
      l.get? i = some p → lastIdxOf p l = some i := by
  intro l
  induction l with
  | nil => intro _ i p h; cases h
  | cons q rest ih =>
    intro hnd i p h
    match i with
    | 0 =>
      have hq : q = p := by simpa using h
      subst hq
      have hnm : q ∉ rest := (List.nodup_cons.mp hnd).1
      simp [lastIdxOf, lastIdxOf_none_of_not_mem q rest hnm]
    | Nat.succ k =>
      have hget : rest.get? k = some p := h
      have := ih (List.nodup_cons.mp hnd).2 k p hget
      simp [lastIdxOf, this]

/-- Characterisation of the edges of `build_dependency_graph`: exactly the
pairs of node indices obtained by resolving an extracted reference of an
input file against the node-path map. -/
theorem mem_edges_iff (files : List FileEntry) (e : Nat × Nat) :
    e ∈ (build_dependency_graph files).edges ↔
      ∃ file ∈ files, ∃ dep ∈ extract_dependencies file.rel_path file.content,
        lastIdxOf file.rel_path (files.map (fun f => f.rel_path)) = some e.1 ∧
        lastIdxOf dep (files.map (fun f => f.rel_path)) = some e.2 := by
  simp only [build_dependency_graph, List.mem_flatMap]
  constructor
  · rintro ⟨file, hfile, he⟩
    rcases hidx : lastIdxOf file.rel_path (files.map (fun f => f.rel_path)) with _ | i
    · rw [hidx] at he
      cases he
    · rw [hidx] at he
      obtain ⟨dep, hdep, hmap⟩ := List.mem_filterMap.mp he
      rcases hj : lastIdxOf dep (files.map (fun f => f.rel_path)) with _ | j
      · rw [hj] at hmap
        cases hmap
      · rw [hj] at hmap
        cases hmap
        exact ⟨file, hfile, dep, hdep, hidx, hj⟩
  · rintro ⟨file, hfile, dep, hdep, hi, hj⟩
    refine ⟨file, hfile, ?_⟩
    rw [hi]
    exact List.mem_filterMap.mpr ⟨dep, hdep, by rw [hj]; rfl⟩

theorem edges_lt_length (files : List FileEntry) (e : Nat × Nat)
    (he : e ∈ (build_dependency_graph files).edges) :
    e.1 < files.length ∧ e.2 < files.length := by
  obtain ⟨file, _, dep, _, hi, hj⟩ := (mem_edges_iff files e).mp he
  have h1 := lastIdxOf_lt_length _ _ _ hi
  have h2 := lastIdxOf_lt_length _ _ _ hj
  rw [List.length_map] at h1 h2
  exact ⟨h1, h2⟩

/-! ## Lemmas about Kahn's algorithm -/

theorem kahnPick_mem {edges : List (Nat × Nat)} {remaining : List Nat} {v : Nat}
    (h : kahnPick edges remaining = some v) : v ∈ remaining :=
  List.mem_of_find?_eq_some h

theorem kahnPick_no_incoming {edges : List (Nat × Nat)} {remaining : List Nat}
    {v : Nat} (h : kahnPick edges remaining = some v) :
    ∀ u ∈ remaining, (u, v) ∉ edges := by
  intro u hu
  have hp := List.find?_some h
  rw [List.all_eq_true] at hp
  simpa using hp u hu

theorem kahnAux_perm (edges : List (Nat × Nat)) :
    ∀ fuel remaining l, kahnAux edges fuel remaining = some l → l.Perm remaining := by
  intro fuel
  induction fuel with
  | zero =>
    intro remaining l h
    match remaining with
    | [] =>
      cases h
      exact List.Perm.refl _
    | _ :: _ => simp [kahnAux] at h
  | succ fuel ih =>
    intro remaining l h
    match remaining with
    | [] =>
      cases h
      exact List.Perm.refl _
    | r :: rest =>
      rcases hpick : kahnPick edges (r :: rest) with _ | w
      · simp [kahnAux, hpick] at h
      · rcases hrec : kahnAux edges fuel ((r :: rest).erase w) with _ | l'
        · simp [kahnAux, hpick, hrec] at h
        · have hl : l = w :: l' := by
            simp [kahnAux, hpick, hrec] at h
            exact h.symm
          subst hl
          exact ((ih _ l' hrec).cons w).trans
            (List.perm_cons_erase (kahnPick_mem hpick)).symm

theorem kahnAux_precedes (edges : List (Nat × Nat)) :
    ∀ fuel remaining l, kahnAux edges fuel remaining = some l →
      ∀ u v, (u, v) ∈ edges → u ∈ remaining → v ∈ remaining →
        Precedes l u v := by
  intro fuel
  induction fuel with
  | zero =>
    intro remaining l h u v he hu hv
    match remaining with
    | [] => cases hu
    | _ :: _ => simp [kahnAux] at h
  | succ fuel ih =>
    intro remaining l h u v he hu hv
    match remaining with
    | [] => cases hu
    | r :: rest =>
      rcases hpick : kahnPick edges (r :: rest) with _ | w
      · simp [kahnAux, hpick] at h
      · rcases hrec : kahnAux edges fuel ((r :: rest).erase w) with _ | l'
        · simp [kahnAux, hpick, hrec] at h
        · have hl : l = w :: l' := by
            simp [kahnAux, hpick, hrec] at h
            exact h.symm
          subst hl
          have hvw : v ≠ w := by
            intro hvw
            exact kahnPick_no_incoming hpick u hu (hvw ▸ he)
          by_cases huw : u = w
          · subst huw
            have hv' : v ∈ (r :: rest).erase u := (List.mem_erase_of_ne hvw).mpr hv
            have hvl' : v ∈ l' := ((kahnAux_perm edges fuel _ l' hrec).mem_iff).mpr hv'
            obtain ⟨j, hj⟩ := List.get?_of_mem hvl'
            exact ⟨0, j + 1, Nat.succ_pos j, rfl, by simpa using hj⟩
          · have hu' : u ∈ (r :: rest).erase w := (List.mem_erase_of_ne huw).mpr hu
            have hv' : v ∈ (r :: rest).erase w := (List.mem_erase_of_ne hvw).mpr hv
            obtain ⟨i, j, hij, hi, hj⟩ := ih _ l' hrec u v he hu' hv'
            exact ⟨i + 1, j + 1, by omega, by simpa using hi, by simpa using hj⟩

/-! ## Cycles make Kahn's algorithm fail, and failure implies a cycle -/

/-- In a chain starting at `x`, every element of the chain list has an
`R`-predecessor among `x :: l`. -/
theorem chain_all_have_pred {R : Nat → Nat → Prop} :
    ∀ (l : List Nat) (x : Nat), List.Chain R x l →
      ∀ v ∈ l, ∃ u ∈ x :: l, R u v := by
  intro l
  induction l with
  | nil =>
    intro x _ v hv
    exact absurd hv (List.not_mem_nil v)
  | cons b t ih =>
    intro x hch v hv
    rcases List.chain_cons.mp hch with ⟨hxb, hbt⟩
    rcases List.mem_cons.mp hv with rfl | hvt
    · exact ⟨x, List.mem_cons_self _ _, hxb⟩
    · obtain ⟨u, hu, hR⟩ := ih b hbt v hvt
      exact ⟨u, List.mem_cons_of_mem x hu, hR⟩

/-- Every node of a directed cycle has a predecessor on the cycle. -/
theorem cycle_pred (g : DiGraph) (c : List Nat) (hc : IsCycle g c) :
    ∀ v ∈ c, ∃ u ∈ c, (u, v) ∈ g.edges := by
  rcases c with _ | ⟨v, rest⟩
  · simp only [IsCycle] at hc
  · intro w hw
    have hch : List.Chain (fun a b => (a, b) ∈ g.edges) v (rest ++ [v]) := hc
    have hw' : w ∈ rest ++ [v] := by
      rcases List.mem_cons.mp hw with rfl | h
      · exact List.mem_append_right _ (List.mem_singleton.mpr rfl)
      · exact List.mem_append_left _ h
    obtain ⟨u, hu, hR⟩ := chain_all_have_pred _ v hch w hw'
    refine ⟨u, ?_, hR⟩
    rcases List.mem_cons.mp hu with rfl | hu'
    · exact List.mem_cons_self _ _
    · rcases List.mem_append.mp hu' with h | h
      · exact List.mem_cons_of_mem _ h
      · rw [List.mem_singleton.mp h]
        exact List.mem_cons_self _ _

/-- If some non-empty node set is closed under "has a predecessor in the
set", Kahn's algorithm can never empty the remaining list and returns
`none`. -/
theorem kahnAux_none_of_stuck (edges : List (Nat × Nat)) (S : List Nat)
    (hne : S ≠ []) (hpred : ∀ v ∈ S, ∃ u ∈ S, (u, v) ∈ edges) :
    ∀ fuel remaining, S ⊆ remaining → kahnAux edges fuel remaining = none := by
  have hSnonempty : ∃ s, s ∈ S := by
    rcases S with _ | ⟨s, S'⟩
    · exact absurd rfl hne
    · exact ⟨s, List.mem_cons_self s S'⟩
  intro fuel
  induction fuel with
  | zero =>
    intro remaining hsub
    match remaining with
    | [] =>
      obtain ⟨s, hs⟩ := hSnonempty
      exact absurd (hsub hs) (List.not_mem_nil s)
    | _ :: _ => simp [kahnAux]
  | succ fuel ih =>
    intro remaining hsub
    match remaining with
    | [] =>
      obtain ⟨s, hs⟩ := hSnonempty
      exact absurd (hsub hs) (List.not_mem_nil s)
    | r :: rest =>
      rcases hpick : kahnPick edges (r :: rest) with _ | w
      · simp [kahnAux, hpick]
      · have hwS : w ∉ S := by
          intro hwS
          obtain ⟨u, huS, hedge⟩ := hpred w hwS
          exact kahnPick_no_incoming hpick u (hsub huS) hedge
        have hsub' : S ⊆ (r :: rest).erase w := by
          intro s hs
          have hsw : s ≠ w := by
            intro h
            rw [h] at hs
            exact hwS hs
          exact (List.mem_erase_of_ne hsw).mpr (hsub hs)
        simp [kahnAux, hpick, ih _ hsub']

/-- Descending chain of iterates, closed with a final edge: the path
`G (a+m+1) → G (a+m) → … → G (a+1) → t`. -/
theorem chain_desc_snoc (R : Nat → Nat → Prop) (G : Nat → Nat)
    (hstep : ∀ n, R (G (n + 1)) (G n)) (t : Nat) :
    ∀ m a, R (G (a + 1)) t →
      List.Chain R (G (a + m + 1))
        (((List.range m).reverse.map (fun k => G (a + k + 1))) ++ [t]) := by
  intro m
  induction m with
  | zero =>
    intro a ht
    exact List.Chain.cons ht List.Chain.nil
  | succ m ih =>
    intro a ht
    simp only [List.range_succ, List.reverse_append, List.reverse_singleton,
      List.singleton_append, List.map_cons, List.cons_append]
    exact List.Chain.cons (hstep (a + m + 1)) (ih a ht)

/-- If every remaining node has a predecessor among the remaining nodes,
the edge list contains a directed cycle (pigeonhole on predecessor
iterates). -/
theorem stuck_gives_cycle (edges : List (Nat × Nat)) (remaining : List Nat)
    (hne : remaining ≠ [])
    (hpred : ∀ v ∈ remaining, ∃ u ∈ remaining, (u, v) ∈ edges) :
    ∃ v rest, List.Chain (fun a b => (a, b) ∈ edges) v (rest ++ [v]) := by
  classical
  have hch : ∀ v, ∃ u, v ∈ remaining → u ∈ remaining ∧ (u, v) ∈ edges := by
    intro v
    by_cases hv : v ∈ remaining
    · obtain ⟨u, hu, he⟩ := hpred v hv
      exact ⟨u, fun _ => ⟨hu, he⟩⟩
    · exact ⟨0, fun h => absurd h hv⟩
  choose f hf using hch
  obtain ⟨x0, hx0⟩ := List.exists_mem_of_ne_nil remaining hne
  set G : Nat → Nat := fun n => f^[n] x0 with hG
  have hGmem : ∀ n, G n ∈ remaining := by
    intro n
    induction n with
    | zero => exact hx0
    | succ n ihn =>
      have : G (n + 1) = f (G n) := Function.iterate_succ_apply' f n x0
      rw [this]
      exact (hf (G n) ihn).1
  have hstep : ∀ n, (G (n + 1), G n) ∈ edges := by
    intro n
    have : G (n + 1) = f (G n) := Function.iterate_succ_apply' f n x0
    rw [this]
    exact (hf (G n) (hGmem n)).2
  have hmaps : ∀ a ∈ Finset.range (remaining.length + 1), G a ∈ remaining.toFinset := by
    intro a _
    exact List.mem_toFinset.mpr (hGmem a)
  have hcard : remaining.toFinset.card < (Finset.range (remaining.length + 1)).card := by
    rw [Finset.card_range]
    exact Nat.lt_succ_of_le remaining.toFinset_card_le
  obtain ⟨x, _, y, _, hxy, hGxy⟩ :=
    Finset.exists_ne_map_eq_of_card_lt_of_maps_to hcard hmaps
  rcases Nat.lt_or_ge x y with hlt | hge
  · obtain ⟨i, j, hij, hGij⟩ : ∃ i j, i < j ∧ G i = G j := ⟨x, y, hlt, hGxy⟩
    have hclose : (G (i + 1), G j) ∈ edges := by
      rw [← hGij]
      exact hstep i
    have hchain := chain_desc_snoc (fun a b => (a, b) ∈ edges) G hstep (G j)
      (j - i - 1) i hclose
    have harith : i + (j - i - 1) + 1 = j := by omega
    rw [harith] at hchain
    exact ⟨G j, (List.range (j - i - 1)).reverse.map (fun k => G (i + k + 1)), hchain⟩
  · have hlt : y < x := Nat.lt_of_le_of_ne hge (fun h => hxy (h ▸ rfl))
    obtain ⟨i, j, hij, hGij⟩ : ∃ i j, i < j ∧ G i = G j := ⟨y, x, hlt, hGxy.symm⟩
    have hclose : (G (i + 1), G j) ∈ edges := by
      rw [← hGij]
      exact hstep i
    have hchain := chain_desc_snoc (fun a b => (a, b) ∈ edges) G hstep (G j)
      (j - i - 1) i hclose
    have harith : i + (j - i - 1) + 1 = j := by omega
    rw [harith] at hchain
    exact ⟨G j, (List.range (j - i - 1)).reverse.map (fun k => G (i + k + 1)), hchain⟩

/-- If Kahn's algorithm fails with enough fuel, the edge list has a
directed cycle. -/
theorem kahnAux_none_gives_cycle (edges : List (Nat × Nat)) :
    ∀ fuel remaining, remaining.length ≤ fuel →
      kahnAux edges fuel remaining = none →
      ∃ v rest, List.Chain (fun a b => (a, b) ∈ edges) v (rest ++ [v]) := by
  intro fuel
  induction fuel with
  | zero =>
    intro remaining hlen h
    match remaining with
    | [] => simp [kahnAux] at h
    | _ :: _ => simp at hlen
  | succ fuel ih =>
    intro remaining hlen h
    match remaining with
    | [] => simp [kahnAux] at h
    | r :: rest =>
      rcases hpick : kahnPick edges (r :: rest) with _ | w
      · have hstuck : ∀ v ∈ r :: rest, ∃ u ∈ r :: rest, (u, v) ∈ edges := by
          intro v hv
          have h1 := List.find?_eq_none.mp hpick v hv
          by_contra hno
          push_neg at hno
          apply h1
          rw [List.all_eq_true]
          intro u hu
          simpa using hno u hu
        exact stuck_gives_cycle edges (r :: rest) (by simp) hstuck
      · rcases hrec : kahnAux edges fuel ((r :: rest).erase w) with _ | l'
        · have hlen' : ((r :: rest).erase w).length ≤ fuel := by
            rw [List.length_erase_of_mem (kahnPick_mem hpick)]
            simp only [List.length_cons] at hlen ⊢
            omega
          exact ih _ hlen' hrec
        · simp [kahnAux, hpick, hrec] at h

/-! ## Bridging lemmas for `sort_files_by_dependency` -/

theorem build_nodes (files : List FileEntry) :
    (build_dependency_graph files).nodes = files.map (fun f => f.rel_path) := rfl

theorem lastIdxOf_mem_of_some (p : String) (l : List String) (i : Nat)
    (h : lastIdxOf p l = some i) : p ∈ l := by
  by_contra hnm
  rw [lastIdxOf_none_of_not_mem p l hnm] at h
  cases h

theorem extract_dependencies_unsupported (p c : String)
    (h : pathExtension p ∉ ["rs", "py", "js", "ts", "java"]) :
    extract_dependencies p c = [] := by
  unfold extract_dependencies
  split <;> simp_all

theorem map_getD_rel_path (files : List FileEntry) (i : Nat) (hi : i < files.length) :
    (files.map (fun f => f.rel_path)).getD i "" = (files.getD i default).rel_path := by
  rcases hg : files[i]? with _ | f
  · have := List.getElem?_eq_none_iff.mp hg
    omega
  · have hm : (files.map (fun f => f.rel_path))[i]? = some f.rel_path := by
      rw [List.getElem?_map, hg]
      rfl
    rw [List.getD_eq_getElem?_getD, List.getD_eq_getElem?_getD, hm, hg]
    rfl

theorem find?_by_path (files : List FileEntry)
    (hnd : (files.map (fun f => f.rel_path)).Nodup) (f : FileEntry) (hf : f ∈ files) :
    files.find? (fun g => g.rel_path == f.rel_path) = some f := by
  induction files with
  | nil => cases hf
  | cons g rest ih =>
    rcases List.mem_cons.mp hf with rfl | hrest
    · exact List.find?_cons_of_pos rest (by simp)
    · have hne : ¬(g.rel_path == f.rel_path) = true := by
        simp only [beq_iff_eq]
        intro heq
        have h1 : g.rel_path ∉ rest.map (fun f => f.rel_path) :=
          (List.nodup_cons.mp (by simpa using hnd)).1
        exact h1 (heq ▸ List.mem_map_of_mem (fun f => f.rel_path) hrest)
      rw [List.find?_cons_of_neg rest hne]
      exact ih (List.nodup_cons.mp (by simpa using hnd)).2 hrest

/-- No directed cycle exists in a graph whose toposort succeeded (edge
targets must lie inside the node range). -/
theorem toposortG_none_of_cycle (g : DiGraph)
    (hbound : ∀ e ∈ g.edges, e.2 < g.nodes.length)
    (c : List Nat) (hc : IsCycle g c) : toposortG g = none := by
  have hpred := cycle_pred g c hc
  have hne : c ≠ [] := by
    rcases c with _ | _
    · simp [IsCycle] at hc
    · simp
  have hsub : c ⊆ List.range g.nodes.length := by
    intro v hv
    obtain ⟨u, _, he⟩ := hpred v hv
    exact List.mem_range.mpr (hbound (u, v) he)
  exact kahnAux_none_of_stuck g.edges c hne hpred _ _ hsub

/-! ## Claim C2: any directed cycle yields `CycleDetected`, never a
partial order -/

/-- **C2.**  For every file set whose dependency graph contains a directed
cycle, `sort_files_by_dependency` returns the cycle-detected error — an
`error` value carries no ordering at all, so no partial order over any
subset of the files is ever produced. -/
theorem cycle_detected_no_partial_order (files : List FileEntry)
    (h : ∃ c, IsCycle (build_dependency_graph files) c) :
    sort_files_by_dependency files = .error "Cycle detected in dependency graph" := by
  obtain ⟨c, hc⟩ := h
  have hbound : ∀ e ∈ (build_dependency_graph files).edges,
      e.2 < (build_dependency_graph files).nodes.length := by
    intro e he
    have h2 := (edges_lt_length files e he).2
    rw [build_nodes, List.length_map]
    exact h2
  have hnone := toposortG_none_of_cycle _ hbound c hc
  simp [sort_files_by_dependency, hnone]

/-- Witness for C2: two mutually referencing files are rejected with
`CycleDetected`. -/
theorem cycle_detected_no_partial_order_witness :
    sort_files_by_dependency [cycFileA, cycFileB] =
      .error "Cycle detected in dependency graph" :=
  cycle_detected_no_partial_order [cycFileA, cycFileB]
    ⟨[0, 1], by
      simp only [IsCycle, List.singleton_append]
      exact List.Chain.cons (by decide) (List.Chain.cons (by decide) List.Chain.nil)⟩

/-! ## Claim C1: direction of the topological order -/

/-- **C1, counterexample.**  With `a.rs → b.rs → c.rs` (each file
referencing the next, `c.rs` referencing nothing), the sorted output is
`[a, b, c]` — the *referencing* file comes first — so `c.rs` does not
precede `b.rs`, refuting the claimed "C before B before A" order. -/
theorem topo_order_direction_counterexample :
    sort_files_by_dependency [fileA, fileB, fileC] = .ok [fileA, fileB, fileC] ∧
    ¬ Precedes [fileA, fileB, fileC] fileC fileB := by
  constructor
  · decide
  · rintro ⟨i, j, hij, hi, hj⟩
    have hjlt : j < 3 := by
      by_contra hge
      rw [List.get?_eq_none.mpr (by simpa using Nat.le_of_not_lt hge)] at hj
      cases hj
    have hilt : i < 3 := by omega
    interval_cases i <;> interval_cases j <;> revert hi hj <;> decide

/-- **C1, amended.**  For every acyclic file set (with distinct relative
paths), the topological sort succeeds and orders files so that the
*referencing* file precedes the file it references: if A references B,
then A comes before B in the output (edges are `file → dependency` and
`petgraph`'s toposort puts each node before its successors). -/
theorem topo_sort_referencing_file_first (files : List FileEntry)
    (hnd : (files.map (fun f => f.rel_path)).Nodup)
    (hacyc : ∀ c, ¬ IsCycle (build_dependency_graph files) c) :
    ∃ l, sort_files_by_dependency files = .ok l ∧
      ∀ fsrc ∈ files, ∀ fdep ∈ files,
        fdep.rel_path ∈ extract_dependencies fsrc.rel_path fsrc.content →
        Precedes l fsrc fdep := by
  rcases htopo : toposortG (build_dependency_graph files) with _ | idxs
  · exfalso
    have hlen : (List.range (build_dependency_graph files).nodes.length).length ≤
        (build_dependency_graph files).nodes.length := by simp
    obtain ⟨v, rest, hchain⟩ := kahnAux_none_gives_cycle
      (build_dependency_graph files).edges _ _ hlen htopo
    exact hacyc (v :: rest) hchain
  · refine ⟨idxs.map (fun i =>
      match files.find? (fun f =>
          f.rel_path == (build_dependency_graph files).nodes.getD i "") with
      | some f => f
      | none => ⟨"", ""⟩), ?_, ?_⟩
    · simp [sort_files_by_dependency, htopo]
    · intro fsrc hsrc fdep hdep href
      have hsrcmem : fsrc.rel_path ∈ files.map (fun f => f.rel_path) :=
        List.mem_map_of_mem _ hsrc
      have hdepmem : fdep.rel_path ∈ files.map (fun f => f.rel_path) :=
        List.mem_map_of_mem _ hdep
      obtain ⟨i, hi⟩ := lastIdxOf_isSome_of_mem _ _ hsrcmem
      obtain ⟨j, hj⟩ := lastIdxOf_isSome_of_mem _ _ hdepmem
      have hedge : (i, j) ∈ (build_dependency_graph files).edges :=
        (mem_edges_iff files (i, j)).mpr ⟨fsrc, hsrc, fdep.rel_path, href, hi, hj⟩
      have hilt := lastIdxOf_lt_length _ _ _ hi
      have hjlt := lastIdxOf_lt_length _ _ _ hj
      have htopo' : kahnAux (build_dependency_graph files).edges
          (build_dependency_graph files).nodes.length
          (List.range (build_dependency_graph files).nodes.length) = some idxs := htopo
      obtain ⟨a, b, hab, ha, hb⟩ := kahnAux_precedes _ _ _ _ htopo' i j hedge
        (List.mem_range.mpr (by rw [build_nodes]; exact hilt))
        (List.mem_range.mpr (by rw [build_nodes]; exact hjlt))
      have hgetdi : (files.map (fun f => f.rel_path)).getD i "" = fsrc.rel_path :=
        lastIdxOf_getD _ _ _ hi
      have hgetdj : (files.map (fun f => f.rel_path)).getD j "" = fdep.rel_path :=
        lastIdxOf_getD _ _ _ hj
      refine ⟨a, b, hab, ?_, ?_⟩
      · rw [List.get?_eq_getElem?, List.getElem?_map, ← List.get?_eq_getElem?, ha]
        simp only [build_nodes, hgetdi, find?_by_path files hnd fsrc hsrc,
          Option.map_some']
      · rw [List.get?_eq_getElem?, List.getElem?_map, ← List.get?_eq_getElem?, hb]
        simp only [build_nodes, hgetdj, find?_by_path files hnd fdep hdep,
          Option.map_some']

/-- Witness for the amended C1 on the concrete three-file chain. -/
theorem topo_sort_referencing_file_first_witness :
    ∃ l, sort_files_by_dependency [fileA, fileB, fileC] = .ok l ∧
      ∀ fsrc ∈ [fileA, fileB, fileC], ∀ fdep ∈ [fileA, fileB, fileC],
        fdep.rel_path ∈ extract_dependencies fsrc.rel_path fsrc.content →
        Precedes l fsrc fdep :=
  topo_sort_referencing_file_first [fileA, fileB, fileC] (by decide)
    (fun c hc => by
      have hbound : ∀ e ∈ (build_dependency_graph [fileA, fileB, fileC]).edges,
          e.2 < (build_dependency_graph [fileA, fileB, fileC]).nodes.length := by decide
      have hnone := toposortG_none_of_cycle _ hbound c hc
      rw [show toposortG (build_dependency_graph [fileA, fileB, fileC]) =
        some [0, 1, 2] from by decide] at hnone
      cases hnone)

/-! ## Claim C8: self-referencing edges are NOT dropped -/

/-- **C8, counterexample.**  A single file `a.rs` containing `use a;`
resolves the reference to its own path, and the finalized graph handed to
the sorter does contain the self-edge `(0, 0)` — the claimed dropping of
self-referencing edges does not happen. -/
theorem self_edge_retained_counterexample :
    (0, 0) ∈ (build_dependency_graph [selfFile]).edges := by decide

/-- **C8, amended.**  Self-referencing edges are retained: whenever the
file at index `i` extracts a reference that resolves to the file's own
relative path, the finalized graph contains the self-edge `(i, i)` (which
then makes the topological sort fail with `CycleDetected`). -/
theorem self_edge_retained (files : List FileEntry)
    (hnd : (files.map (fun f => f.rel_path)).Nodup)
    (i : Nat) (f : FileEntry) (hget : files.get? i = some f)
    (hdep : f.rel_path ∈ extract_dependencies f.rel_path f.content) :
    (i, i) ∈ (build_dependency_graph files).edges := by
  have hpaths : (files.map (fun g => g.rel_path)).get? i = some f.rel_path := by
    rw [List.get?_eq_getElem?, List.getElem?_map, ← List.get?_eq_getElem?, hget]
    rfl
  have hidx := lastIdxOf_of_nodup _ hnd i f.rel_path hpaths
  exact (mem_edges_iff files (i, i)).mpr
    ⟨f, List.get?_mem hget, f.rel_path, hdep, hidx, hidx⟩

/-- Witness for the amended C8: the hypotheses hold at `[selfFile]`, index
`0`, and the self-edge is present. -/
theorem self_edge_retained_witness :
    selfFile.rel_path ∈ extract_dependencies selfFile.rel_path selfFile.content ∧
    (0, 0) ∈ (build_dependency_graph [selfFile]).edges :=
  ⟨by decide, self_edge_retained [selfFile] (by decide) 0 selfFile (by decide) (by decide)⟩

/-! ## Claim C9: node set and edge shape of the dependency graph -/

/-- **C9.**  For every file set: the node set
of the built graph is exactly the files' relative paths, one node per
`FileEntry`, in input order; every edge joins two valid node indices and
arises from an extracted reference whose candidate string exactly equals
the relative path at the edge's target (so unresolved references add
nothing); and a file whose extension is unsupported contributes no
outgoing edge. -/
theorem dependency_graph_nodes_edges (files : List FileEntry) :
    (build_dependency_graph files).nodes = files.map (fun f => f.rel_path) ∧
    (∀ e ∈ (build_dependency_graph files).edges,
      e.1 < files.length ∧ e.2 < files.length ∧
      ∃ fsrc ∈ files, ∃ dep ∈ extract_dependencies fsrc.rel_path fsrc.content,
        (build_dependency_graph files).nodes.getD e.1 "" = fsrc.rel_path ∧
        (build_dependency_graph files).nodes.getD e.2 "" = dep ∧
        dep ∈ files.map (fun f => f.rel_path)) ∧
    (∀ i, i < files.length →
      pathExtension (files.getD i default).rel_path ∉ ["rs", "py", "js", "ts", "java"] →
      ∀ e ∈ (build_dependency_graph files).edges, e.1 ≠ i) := by
  refine ⟨build_nodes files, ?_, ?_⟩
  · intro e he
    obtain ⟨hlt1, hlt2⟩ := edges_lt_length files e he
    obtain ⟨fsrc, hsrc, dep, hdep, hi, hj⟩ := (mem_edges_iff files e).mp he
    refine ⟨hlt1, hlt2, fsrc, hsrc, dep, hdep, ?_, ?_, ?_⟩
    · rw [build_nodes]
      exact lastIdxOf_getD _ _ _ hi
    · rw [build_nodes]
      exact lastIdxOf_getD _ _ _ hj
    · exact lastIdxOf_mem_of_some _ _ _ hj
  · intro i hilt hunsupported e he hei
    obtain ⟨fsrc, hsrc, dep, hdep, hi, _⟩ := (mem_edges_iff files e).mp he
    rw [hei] at hi
    have hpath : (files.map (fun f => f.rel_path)).getD i "" = fsrc.rel_path :=
      lastIdxOf_getD _ _ _ hi
    rw [map_getD_rel_path files i hilt] at hpath
    rw [hpath] at hunsupported
    rw [extract_dependencies_unsupported fsrc.rel_path fsrc.content hunsupported] at hdep
    cases hdep

/-- Witness for C9 on a concrete two-file set (one supported, one
unsupported extension). -/
theorem dependency_graph_nodes_edges_witness :
    (build_dependency_graph [fileA, unsupFile]).nodes =
      [fileA, unsupFile].map (fun f => f.rel_path) ∧
    (∀ e ∈ (build_dependency_graph [fileA, unsupFile]).edges,
      e.1 < [fileA, unsupFile].length ∧ e.2 < [fileA, unsupFile].length ∧
      ∃ fsrc ∈ [fileA, unsupFile],
        ∃ dep ∈ extract_dependencies fsrc.rel_path fsrc.content,
        (build_dependency_graph [fileA, unsupFile]).nodes.getD e.1 "" =
          fsrc.rel_path ∧
        (build_dependency_graph [fileA, unsupFile]).nodes.getD e.2 "" = dep ∧
        dep ∈ [fileA, unsupFile].map (fun f => f.rel_path)) ∧
    (∀ i, i < [fileA, unsupFile].length →
      pathExtension ([fileA, unsupFile].getD i default).rel_path ∉
        ["rs", "py", "js", "ts", "java"] →
      ∀ e ∈ (build_dependency_graph [fileA, unsupFile]).edges, e.1 ≠ i) :=
  dependency_graph_nodes_edges [fileA, unsupFile]

/-! ## Claim C5: zero triggers / zero matches yield one whole-input chunk -/

/-- With no trigger line, the fallback fold never closes a chunk: it only
accumulates every line plus `'\n'`. -/
theorem fallback_foldl_no_trigger (lang : String) :
    ∀ (lines : List String) (results : List CodeChunk) (acc : String),
      (∀ l ∈ lines, isTriggerLine l = false) →
      lines.foldl (fallbackStep lang) (results, acc) =
        (results, acc ++ joinStrings (lines.map (fun l => l ++ "\n"))) := by
  intro lines
  induction lines with
  | nil =>
    intro results acc _
    simp [joinStrings, String.append_empty]
  | cons l ls ih =>
    intro results acc hnt
    have hl : isTriggerLine l = false := hnt l (List.mem_cons_self _ _)
    simp only [List.foldl_cons]
    rw [show fallbackStep lang (results, acc) l = (results, acc ++ l ++ "\n") from by
      simp [fallbackStep, hl]]
    rw [ih _ _ (fun x hx => hnt x (List.mem_cons_of_mem _ hx))]
    simp only [List.map_cons, joinStrings, String.append_assoc]

/-- A joined list of newline-terminated lines is never empty. -/
theorem joinStrings_newline_ne_empty (l : String) (ls : List String) :
    joinStrings ((l :: ls).map (fun x => x ++ "\n")) ≠ "" := by
  intro h
  have hlen := congrArg String.length h
  simp only [List.map_cons, joinStrings, String.length_append] at hlen
  have h1 : ("\n" : String).length = 1 := rfl
  have h2 : ("" : String).length = 0 := rfl
  omega

/-- **C5, amended.**  If no line's left-trimmed prefix is a trigger
keyword, the fallback chunker emits exactly one chunk consisting of the
input's lines each re-terminated with `'\n'` (so it equals the input byte
for byte only when the input uses `'\n'` endings and ends in a newline),
and it emits no chunk at all for the empty input.  For the Rust chunker, a
failed parse or zero interesting top-level nodes yields exactly one chunk
equal to the entire input, byte for byte. -/
theorem no_trigger_single_chunk (content lang : String)
    (parse : String → Option (List RustNode))
    (hnt : ∀ line ∈ rustLines content, isTriggerLine line = false) :
    (parse_fallback_line_based content lang =
      if rustLines content = [] then []
      else [⟨joinStrings ((rustLines content).map (fun l => l ++ "\n")), lang⟩]) ∧
    (parse content = none → parse_rust_tree parse content = [⟨content, "rust"⟩]) ∧
    (∀ children, parse content = some children →
      (∀ child ∈ children, rustInteresting.contains child.kind = false) →
      parse_rust_tree parse content = [⟨content, "rust"⟩]) := by
  refine ⟨?_, ?_, ?_⟩
  · rcases hls : rustLines content with _ | ⟨l, ls⟩
    · simp [parse_fallback_line_based, hls]
    · have hnt' : ∀ x ∈ l :: ls, isTriggerLine x = false := by
        rw [← hls]
        exact hnt
      have hfold := fallback_foldl_no_trigger lang (l :: ls) [] "" hnt'
      have hne := joinStrings_newline_ne_empty l ls
      have hbeq : (joinStrings ((l :: ls).map (fun x => x ++ "\n")) == "") = false :=
        beq_eq_false_iff_ne.mpr hne
      rw [if_neg (by simp : ¬(l :: ls : List String) = [])]
      simp only [parse_fallback_line_based, hls, hfold, String.empty_append]
      simp only [List.map_cons] at hbeq
      simp [hbeq]
  · intro hp
    simp [parse_rust_tree, hp]
  · intro children hp hnone
    have hres : children.filterMap (fun child =>
        if rustInteresting.contains child.kind then
          some (⟨extract_snippet content child, "rust"⟩ : CodeChunk)
        else none) = [] := by
      rw [List.filterMap_eq_nil_iff]
      intro child hchild
      rw [hnone child hchild]
      rfl
    simp only [parse_rust_tree, hp]
    rw [hres]
    rfl

/-- **C5, counterexample.**  The input `"abc"` (no trailing newline, no
trigger line) produces one chunk `"abc\n"`, which is not byte-for-byte
equal to the input — the fallback re-appends `'\n'` to every line. -/
theorem fallback_not_byte_identical :
    parse_fallback_line_based "abc" "txt" = [⟨"abc\n", "txt"⟩] ∧
    ("abc\n" : String) ≠ "abc" ∧
    (∀ line ∈ rustLines "abc", isTriggerLine line = false) := by decide

/-- Witness for the amended C5 at `"abc"` and an always-failing parse. -/
theorem no_trigger_single_chunk_witness :
    parse_fallback_line_based "abc" "txt" =
      (if rustLines "abc" = [] then []
       else [⟨joinStrings ((rustLines "abc").map (fun l => l ++ "\n")), "txt"⟩]) ∧
    parse_rust_tree (fun _ => none) "abc" = [⟨"abc", "rust"⟩] := by
  have h := no_trigger_single_chunk "abc" "txt" (fun _ => none) (by decide)
  exact ⟨h.1, h.2.1 rfl⟩

/-! ## Claim C4: prompt/completion token accounting -/

/-- **C4.**  For every valid split ratio `r ∈ (0, 1)`: a file with fewer
than two tokens is skipped and yields no sample; a file with at least two
tokens yields exactly one sample whose `prompt_tokens` is
`⌈total · r⌉`, whose `completion_tokens` is `total - prompt_tokens` (so
the two counts sum to `total`), whose prompt decodes the first
`prompt_tokens` tokens, and whose completion decodes the rest. -/
theorem mkSample_token_accounting (encode : String → List Nat)
    (decode : List Nat → Option String) (r : ℚ) (content : String)
    (_h0 : 0 < r) (h1 : r < 1) :
    ((encode content).length < 2 → mkSample encode decode r content = none) ∧
    (2 ≤ (encode content).length →
      mkSample encode decode r content = some
        { prompt := (decode ((encode content).take
            (Int.ceil (((encode content).length : ℚ) * r)).toNat)).getD ""
          completion := (decode ((encode content).drop
            (Int.ceil (((encode content).length : ℚ) * r)).toNat)).getD ""
          prompt_tokens := (Int.ceil (((encode content).length : ℚ) * r)).toNat
          completion_tokens := (encode content).length -
            (Int.ceil (((encode content).length : ℚ) * r)).toNat
          tokenizer := tokenizerName } ∧
      (Int.ceil (((encode content).length : ℚ) * r)).toNat +
        ((encode content).length -
          (Int.ceil (((encode content).length : ℚ) * r)).toNat) =
        (encode content).length) := by
  constructor
  · intro hlt
    simp [mkSample, hlt]
  · intro hge
    have htot : 0 < (encode content).length := by omega
    have hceil_le : Int.ceil (((encode content).length : ℚ) * r) ≤
        ((encode content).length : ℤ) := by
      rw [Int.ceil_le]
      push_cast
      have hpos : (0 : ℚ) < ((encode content).length : ℚ) := by exact_mod_cast htot
      have hlt : ((encode content).length : ℚ) * r <
          ((encode content).length : ℚ) * 1 := mul_lt_mul_of_pos_left h1 hpos
      rw [mul_one] at hlt
      exact le_of_lt hlt
    have hle : (Int.ceil (((encode content).length : ℚ) * r)).toNat ≤
        (encode content).length := Int.toNat_le.mpr hceil_le
    refine ⟨?_, by omega⟩
    simp only [mkSample]
    rw [if_neg (by omega)]
    simp [List.length_take, List.length_drop, Nat.min_eq_left hle]

/-- Witness for C4 at a two-token file and `r = 1/2`. -/
theorem mkSample_token_accounting_witness :
    mkSample encodeChars decodeChars (1/2) "ab" = some
      { prompt := "a", completion := "b", prompt_tokens := 1,
        completion_tokens := 1, tokenizer := tokenizerName } := by
  have h := (mkSample_token_accounting encodeChars decodeChars (1/2) "ab"
    (by norm_num) (by norm_num)).2 (by decide)
  have hlen : (encodeChars "ab").length = 2 := by decide
  have hc : (Int.ceil (((encodeChars "ab").length : ℚ) * (1/2))).toNat = 1 := by
    rw [hlen]
    rw [show Int.ceil (((2 : ℕ) : ℚ) * (1/2)) = 1 from by push_cast; norm_num]
    rfl
  rw [h.1, hc, hlen]
  decide

/-! ## Claim C7: the split ratio is validated before anything else -/

/-- `sort_files_by_dependency` fails only with the cycle message. -/
theorem sort_error_msg (files : List FileEntry) (e : String)
    (h : sort_files_by_dependency files = .error e) :
    e = "Cycle detected in dependency graph" := by
  rcases ht : toposortG (build_dependency_graph files) with _ | idxs
  · simp only [sort_files_by_dependency, ht] at h
    exact (Except.error.injEq _ _).mp h.symm
  · simp [sort_files_by_dependency, ht] at h

/-- **C7.**  `produce_training_json` returns the `InvalidSplitRatio` error
exactly when `r` is outside the open interval (0, 1) — for every file set,
including ones whose graph is cyclic, so the validation precedes the sort,
the encoding and the sampling, and a rejection carries no output at all;
conversely, a ratio strictly inside (0, 1) is never rejected for the
ratio. -/
theorem split_ratio_validated_first (encode : String → List Nat)
    (decode : List Nat → Option String) (files : List FileEntry) (r : ℚ) :
    produce_training_json encode decode files r = .error ratioError ↔
      ¬(0 < r ∧ r < 1) := by
  constructor
  · intro h
    by_contra hok
    obtain ⟨h0, h1⟩ := hok
    have hcond : ¬(r ≤ 0 ∨ 1 ≤ r) := by
      push_neg
      exact ⟨h0, h1⟩
    simp only [produce_training_json] at h
    rw [if_neg hcond] at h
    rcases hs : sort_files_by_dependency files with e | sorted
    · rw [hs] at h
      have hmsg := sort_error_msg files e hs
      rw [Except.error.injEq, hmsg] at h
      exact absurd h (by decide)
    · rw [hs] at h
      exact Except.noConfusion h
  · intro h
    have hcond : r ≤ 0 ∨ 1 ≤ r := by
      by_contra hc
      push_neg at hc
      exact h ⟨hc.1, hc.2⟩
    simp [produce_training_json, hcond]

/-! ## Claim C10: the completion can be empty for a valid ratio -/

/-- **C10.**  There exist a valid split ratio strictly inside (0, 1)
(`r = 3/5`) and a file of exactly two tokens for which
`⌈total · r⌉ = total`: the emitted sample then has
`completion_tokens = 0` and an empty completion string, so the sampler
never guarantees a non-empty completion. -/
theorem empty_completion_exists :
    (0 < (3/5 : ℚ) ∧ (3/5 : ℚ) < 1) ∧
    2 ≤ (encodeChars "ab").length ∧
    (Int.ceil (((encodeChars "ab").length : ℚ) * (3/5))).toNat =
      (encodeChars "ab").length ∧
    mkSample encodeChars decodeChars (3/5) "ab" = some
      { prompt := "ab", completion := "", prompt_tokens := 2,
        completion_tokens := 0, tokenizer := tokenizerName } := by
  have hc : (Int.ceil (((encodeChars "ab").length : ℚ) * (3/5))).toNat = 2 := by
    rw [show (encodeChars "ab").length = 2 from by decide]
    rw [show Int.ceil (((2 : ℕ) : ℚ) * (3/5)) = 2 from
      Int.ceil_eq_iff.mpr ⟨by push_cast; norm_num, by push_cast; norm_num⟩]
    rfl
  refine ⟨⟨by norm_num, by norm_num⟩, by decide, by rw [hc]; decide, ?_⟩
  simp only [mkSample]
  rw [if_neg (by decide)]
  rw [hc]
  decide

/-- Witness for C7: an out-of-range ratio is rejected with the ratio error
even on a cyclic file set, so validation comes first. -/
theorem split_ratio_validated_first_witness :
    produce_training_json encodeChars decodeChars [cycFileA, cycFileB] (3/2) =
      .error ratioError :=
  (split_ratio_validated_first encodeChars decodeChars [cycFileA, cycFileB] (3/2)).mpr
    (fun hok => by
      have h1 := hok.2
      norm_num at h1)
